import Mathlib

/-!
Shallow embedding of the `philpearl/stringbank` repository (package
`stringbank`, heap-backed, and package `offheap`, OS-mapped) and proofs
about it.

Modelling conventions.

* Go byte slices become `List Nat`; a Go `byte` is a `Nat` (the byte range
  `< 256` is stated as a hypothesis where a proof needs it).  A Go string is
  its byte sequence, so it is also a `List Nat`.
* A `Stringbank` value holds `current []byte` and `allocations [][]byte`,
  where `current` always aliases the last element of `allocations` (both are
  set together in `reserve`).  Pages are `stringbankSize` bytes, zero
  initialised (`make` for the heap variant, anonymous mmap for the OS
  variant), and are only ever written by `Save` filling the region returned
  by `reserve` completely (`writeLength` writes exactly `spaceForLength`
  bytes and `copy` the payload).  The whole state is therefore captured by
  the list of written byte prefixes of the pages, one entry per allocation,
  in order; the byte at offset `i` of a page `p` is `p.getD i 0` once `p` is
  padded with zeros to the page size (`pageBytes`).  `len(s.current)` is the
  length of the last entry and `cap(s.current)` is `0` for a fresh (or
  closed) bank and `stringbankSize` otherwise.
* Go `int` is 64-bit; index arithmetic in `Save`/`reserve`/`Get` is modelled
  on `Int` (it can go negative: `reserve` computes
  `(len(s.allocations)-1)*stringbankSize`).  Go's `/` and `%` truncate
  toward zero, which is `Int.tdiv` / `Int.tmod`.  The counters in the length
  codec stay non-negative and far below `2^63` for every record a bank can
  hold, so they are modelled on `Nat`.
* Code that panics in Go (indexing or slicing out of range in `Get`,
  `reserve` slicing `s.current` beyond its capacity, `readLength` running
  past the end of the buffer) returns `none` in the model.
-/

/-- Source constant `stringbankSize = 1 << 18`: the page size. -/
def stringbankSize : Nat := 1 <<< 18

/-- Fuel-indexed bit length: `bitsLenAux fuel n` is Go `bits.Len(n)` whenever
`n < 2 ^ fuel`.  Go `bits.Len` returns the minimum number of bits needed to
represent `n`, with `bits.Len(0) = 0`. -/
def bitsLenAux : Nat → Nat → Nat
  | 0, _ => 0
  | fuel + 1, n => if n = 0 then 0 else bitsLenAux fuel (n / 2) + 1

/-- Go `bits.Len` for a 64-bit `uint` argument. -/
def bitsLen (n : Nat) : Nat := bitsLenAux 64 n

/-- Source `spaceForLength`: `(bits.Len(uint(len)) + 6) / 7`, the number of
bytes `writeLength` will use.  Note the source has no minimum of 1:
`spaceForLength 0 = 0`.  The `offheap` package contains a verbatim copy. -/
def spaceForLength (len : Nat) : Nat := (bitsLen len + 6) / 7

/-- Fuel-indexed body of the `writeLength` loop: the list of bytes the loop
stores into `buf`, in order.  Each iteration emits `remainder & 0x7F`, sets
the continuation bit `0x80` unless the remaining value `remainder >> 7` is
zero, and stops when the remainder is zero.  The loop runs at most
`fuel` times; for `n < 2 ^ (7 * fuel)` the fuel is never exhausted. -/
def writeLengthAux : Nat → Nat → List Nat
  | 0, _ => []
  | fuel + 1, n =>
    if n = 0 then []
    else
      (if n >>> 7 = 0 then n &&& 0x7F else (n &&& 0x7F) ||| 0x80)
        :: writeLengthAux fuel (n >>> 7)

/-- Source `writeLength len buf`: the bytes written into `buf` starting at
offset 0.  The value returned by the Go function is the byte count, i.e. the
length of this list.  Fuel 10 covers every 64-bit `int` length
(`2 ^ 70 > 2 ^ 63`).  The `offheap` package contains a verbatim copy. -/
def writeLengthBytes (len : Nat) : List Nat := writeLengthAux 10 len

/-- Body of the `readLength` loop over the not-yet-consumed bytes of `buf`.
`i` is the loop counter, `total` the accumulator; each byte contributes
`(val & 0x7F) << (7 * i)` and a clear continuation bit `0x80` stops the
loop, returning `(total, i + 1)`.  Running off the end of the buffer is a
panic in Go (out-of-range index in the heap variant, explicit `panic` in the
offheap variant), modelled as `none`. -/
def readLengthAux : List Nat → Nat → Nat → Option (Nat × Nat)
  | [], _, _ => none
  | val :: rest, i, total =>
    let total' := total + ((val &&& 0x7F) <<< (7 * i))
    if val &&& 0x80 = 0 then some (total', i + 1)
    else readLengthAux rest (i + 1) total'

/-- Source `readLength buf`: the decoded `(length, bytesConsumed)` pair, or
`none` when the buffer ends before a terminating byte (a Go panic). -/
def readLength (buf : List Nat) : Option (Nat × Nat) := readLengthAux buf 0 0

/-- `len(s.current)`: the number of bytes written to the current (= last)
page; `0` for a fresh bank. -/
def currentLen (pages : List (List Nat)) : Nat :=
  match pages.getLast? with
  | none => 0
  | some p => p.length

/-- `cap(s.current)`: `0` for a fresh (or closed) bank whose `current` is
`nil`, and `stringbankSize` once a page has been allocated. -/
def currentCap (pages : List (List Nat)) : Nat :=
  match pages with
  | [] => 0
  | _ => stringbankSize

/-- The caller of `reserve` filling the reserved byte region: `Save` writes
the length prefix and then copies the payload, exactly filling the region,
which extends the written prefix of the current (= last) page by the record
bytes.  On a fresh bank with nothing reserved (`l = 0`) there is no page and
nothing is written. -/
def writeRecord (pages : List (List Nat)) (rec : List Nat) : List (List Nat) :=
  match pages with
  | [] => []
  | _ :: _ => pages.dropLast ++ [pages.getLast?.getD [] ++ rec]

/-- Source `reserve l`: if the current page lacks room (`len + l > cap`) a
fresh zeroed page of capacity `stringbankSize` is allocated and appended to
`allocations`; the returned index is
`(len(s.allocations)-1)*stringbankSize + offset` with `offset` the write
position in the current page.  The statement `s.current = s.current[:offset+l]`
panics (`none`) when `offset + l` exceeds the page capacity, which happens
exactly when a record larger than a page is reserved.  The reserved region
`[offset, offset+l)` is filled by the caller via `writeRecord`. -/
def reserve (pages : List (List Nat)) (l : Nat) :
    Option (Int × List (List Nat)) :=
  let pages' :=
    if currentCap pages < currentLen pages + l then pages ++ [[]] else pages
  let offset := currentLen pages'
  if currentCap pages' < offset + l then none
  else some (((pages'.length : Int) - 1) * (stringbankSize : Int) + (offset : Int), pages')

/-- Source `Save tocopy` (heap variant): reserve `len + spaceForLength len`
bytes, write the length with `writeLength`, copy the payload after it, and
return the index. -/
def save (pages : List (List Nat)) (tocopy : List Nat) :
    Option (Int × List (List Nat)) :=
  let l := tocopy.length
  (reserve pages (l + spaceForLength l)).map fun r =>
    (r.1, writeRecord r.2 (writeLengthBytes l ++ tocopy))

/-- A sequence of `Save` calls, returning the indices in order and the final
state. -/
def saveList (pages : List (List Nat)) :
    List (List Nat) → Option (List Int × List (List Nat))
  | [] => some ([], pages)
  | s :: rest =>
    (save pages s).bind fun r =>
      (saveList r.2 rest).map fun q => (r.1 :: q.1, q.2)

/-- The full `stringbankSize`-byte content of a page whose written byte
run is `p`: pages are zero-initialised, so the unwritten tail reads as
zeros. -/
def pageBytes (p : List Nat) : List Nat :=
  p ++ List.replicate (stringbankSize - p.length) 0

/-- Source `Get index` (heap variant): `data := allocations[index/stringbankSize]`,
`offset := index % stringbankSize` (Go `/` and `%` truncate toward zero),
then `readLength(data[offset:])` and the slice
`data[offset+llen : offset+llen+l]`.  Out-of-range page index, negative
offset, a length prefix running past the page, or a payload slice beyond the
page capacity are Go panics, modelled as `none`. -/
def get (pages : List (List Nat)) (index : Int) : Option (List Nat) :=
  let pageIdx := Int.tdiv index (stringbankSize : Int)
  let offset := Int.tmod index (stringbankSize : Int)
  if 0 ≤ pageIdx ∧ pageIdx.toNat < pages.length ∧ 0 ≤ offset then
    let data := pageBytes (pages.getD pageIdx.toNat [])
    match readLength (data.drop offset.toNat) with
    | none => none
    | some (l, llen) =>
      if offset.toNat + llen + l ≤ stringbankSize then
        some ((data.drop (offset.toNat + llen)).take l)
      else none
  else none

/-- Source `Size`: `len(s.allocations) * stringbankSize`.  The `offheap`
variant is identical. -/
def size (pages : List (List Nat)) : Nat := pages.length * stringbankSize

/-- Every page's written run fits in a page.  This holds for every reachable
bank state (`save` preserves it, see `save_WF`). -/
def WF (pages : List (List Nat)) : Prop :=
  ∀ p ∈ pages, p.length ≤ stringbankSize

instance : DecidablePred WF := fun pages =>
  inferInstanceAs (Decidable (∀ p ∈ pages, p.length ≤ stringbankSize))

/-- The widest length prefix a record that fits in one page can need:
`spaceForLength stringbankSize` (= 3 bytes, since `stringbankSize = 2^18`
has 19 bits).  This is the spec's `maxPrefixWidth`. -/
def maxWidthForPage : Nat := spaceForLength stringbankSize

/-- Outcome of the `mmap.Alloc` system call made by the offheap `reserve`
(the `alloc` helper issues `SYS_MMAP` and turns a nonzero `errno` into an
error).  The slice header it returns has `Cap` set to the requested size
whether or not the call failed. -/
inductive AllocResult where
  | ok : AllocResult
  | err : Nat → AllocResult
deriving DecidableEq

/-- Source `reserve` of the `offheap` package.  It is the heap `reserve`
with the page obtained from `mmap.Alloc` instead of `make`; crucially the
statement `slice, _ := mmap.Alloc[byte](stringbankSize)` discards the error
with a blank identifier, so the outcome `res` of the system call has no
influence whatsoever on the function's behaviour: even on a failed mapping
the slice header (with `Cap = stringbankSize`) is installed as the current
page and the bank proceeds as if allocation succeeded.  (Writing through
the invalid mapping is a memory fault, outside the embedding; what the
model captures is that no error reaches the caller.) -/
def reserveOff (res : AllocResult) (pages : List (List Nat)) (l : Nat) :
    Option (Int × List (List Nat)) :=
  let pages' :=
    if currentCap pages < currentLen pages + l then
      match res with
      | AllocResult.ok => pages ++ [[]]
      | AllocResult.err _ => pages ++ [[]]
    else pages
  let offset := currentLen pages'
  if currentCap pages' < offset + l then none
  else some (((pages'.length : Int) - 1) * (stringbankSize : Int) + (offset : Int), pages')

/-- Source `Save` of the `offheap` package: for `len(tocopy) <= 0x7F` a
fast path reserves `l + 1` bytes and writes the single length byte `byte(l)`
directly; otherwise the general `spaceForLength`/`writeLength` path runs,
identical to the heap variant.  `res` is the outcome of the `mmap.Alloc`
call should a page allocation happen. -/
def saveOff (res : AllocResult) (pages : List (List Nat)) (tocopy : List Nat) :
    Option (Int × List (List Nat)) :=
  let l := tocopy.length
  if l ≤ 0x7F then
    (reserveOff res pages (l + 1)).map fun r =>
      (r.1, writeRecord r.2 (l :: tocopy))
  else
    (reserveOff res pages (l + spaceForLength l)).map fun r =>
      (r.1, writeRecord r.2 (writeLengthBytes l ++ tocopy))

/-- Source `Get` of the `offheap` package: same page/offset decoding as the
heap variant, but with a fast path — when the first byte `l := data[offset]`
has the continuation bit clear, the payload is `data[offset+1 : offset+1+int(l)]`
without calling `readLength`.  Otherwise the general path runs, identical to
the heap `Get`. -/
def getOff (pages : List (List Nat)) (index : Int) : Option (List Nat) :=
  let pageIdx := Int.tdiv index (stringbankSize : Int)
  let offset := Int.tmod index (stringbankSize : Int)
  if 0 ≤ pageIdx ∧ pageIdx.toNat < pages.length ∧ 0 ≤ offset then
    let data := pageBytes (pages.getD pageIdx.toNat [])
    let l := data.getD offset.toNat 0
    if l &&& 0x80 = 0 then
      if offset.toNat + 1 + l ≤ stringbankSize then
        some ((data.drop (offset.toNat + 1)).take l)
      else none
    else
      match readLength (data.drop offset.toNat) with
      | none => none
      | some (l, llen) =>
        if offset.toNat + llen + l ≤ stringbankSize then
          some ((data.drop (offset.toNat + llen)).take l)
        else none
  else none

/-- The loop of the offheap `Close`: `mmap.Free` is called on the
allocations in order and the first error is returned immediately, leaving
the struct fields untouched.  The outcome of the `i`-th `Free` system call
is abstracted as the oracle `freeOk i`.  `closeLoop freeOk i n` processes
`n` remaining allocations starting at position `i` and returns the total
number of `Free` calls made together with the position of the first failure,
if any. -/
def closeLoop (freeOk : Nat → Bool) : Nat → Nat → Nat × Option Nat
  | i, 0 => (i, none)
  | i, n + 1 =>
    if freeOk i then closeLoop freeOk (i + 1) n else (i + 1, some i)

/-- Source `Close` of the `offheap` package: free every allocation (stopping
at the first error, which is returned with the state not cleared), then set
`allocations = nil` and `current = nil`, i.e. the fresh state `[]`.  The
returned pair is (number of `Free` calls made, error-or-new-state). -/
def closeOff (freeOk : Nat → Bool) (pages : List (List Nat)) :
    Nat × Except Nat (List (List Nat)) :=
  match closeLoop freeOk 0 pages.length with
  | (calls, none) => (calls, Except.ok [])
  | (calls, some e) => (calls, Except.error e)

/-- All stored bytes are in the byte range.  Go guarantees this by typing
(`[]byte` elements are `uint8`); the model states it where a proof needs
it. -/
def BytesWF (pages : List (List Nat)) : Prop :=
  ∀ p ∈ pages, ∀ b ∈ p, b < 256

instance : DecidablePred BytesWF := fun pages =>
  inferInstanceAs (Decidable (∀ p ∈ pages, ∀ b ∈ p, b < 256))

/-- The bank's write position as a flat index:
`(len(allocations) - 1) * stringbankSize + len(current)`.  Every index
returned by `reserve` equals the value of `pos` at the moment of the
reservation, and reserving `l` bytes advances `pos` by exactly `l` past
the returned index. -/
def pos (pages : List (List Nat)) : Int :=
  ((pages.length : Int) - 1) * (stringbankSize : Int) + (currentLen pages : Nat)

/-- Index `idx` refers to a complete record holding the string `s`: within
page `i` the written bytes at offsets `[pre.length, pre.length + width + len)`
are the length prefix followed by the payload, and the whole record fits the
page.  `save` establishes this for the index it returns, and every later
`save` preserves it. -/
def Saved (pages : List (List Nat)) (idx : Int) (s : List Nat) : Prop :=
  ∃ (i : Nat) (pre tail : List Nat),
    idx = (i : Int) * (stringbankSize : Int) + (pre.length : Nat) ∧
    i < pages.length ∧
    pages.getD i [] = pre ++ (writeLengthBytes s.length ++ s) ++ tail ∧
    pre.length + (writeLengthBytes s.length).length + s.length ≤ stringbankSize ∧
    1 ≤ (writeLengthBytes s.length).length

example : maxWidthForPage = 3 := by decide

theorem and127_eq_mod (n : Nat) : n &&& 127 = n % 128 := by
  have h := Nat.and_pow_two_sub_one_eq_mod n 7
  norm_num at h
  exact h

theorem shr7_eq_div (n : Nat) : n >>> 7 = n / 128 := by
  rw [Nat.shiftRight_eq_div_pow]

theorem or128_and127 : ∀ v, v < 128 → (v ||| 128) &&& 127 = v := by decide

theorem or128_and128 : ∀ v, v < 128 → (v ||| 128) &&& 128 = 128 := by decide

theorem lt128_and128 : ∀ v, v < 128 → v &&& 128 = 0 := by decide

theorem writeLengthAux_zero : ∀ fuel, writeLengthAux fuel 0 = [] := by
  intro fuel
  cases fuel <;> simp [writeLengthAux]

theorem pow7_succ_eq (fuel : Nat) : (2 : Nat) ^ (7 * (fuel + 1)) = 2 ^ (7 * fuel) * 128 := by
  rw [show 7 * (fuel + 1) = 7 * fuel + 7 by ring, pow_add]
  norm_num

/-- Round-trip of the codec loops: decoding the bytes that the
`writeLength` loop emits for a positive value `n`, with anything at all
after them, yields `n` (shifted into position `i`) and consumes exactly
those bytes. -/
theorem readLengthAux_writeLengthAux : ∀ fuel n : Nat, n < 2 ^ (7 * fuel) → 1 ≤ n →
    ∀ (tail : List Nat) (i total : Nat),
      readLengthAux (writeLengthAux fuel n ++ tail) i total
        = some (total + n * 2 ^ (7 * i), i + (writeLengthAux fuel n).length) := by
  intro fuel
  induction fuel with
  | zero =>
    intro n hn h1
    simp at hn
    omega
  | succ fuel ih =>
    intro n hn h1 tail i total
    have hn0 : n ≠ 0 := by omega
    by_cases hr : n >>> 7 = 0
    · have hnlt : n < 128 := by
        have h := shr7_eq_div n
        omega
      have hb : writeLengthAux (fuel + 1) n = [n &&& 127] := by
        simp [writeLengthAux, hn0, hr, writeLengthAux_zero]
      have h127 : n &&& 127 = n := by rw [and127_eq_mod]; omega
      rw [hb]
      simp only [List.cons_append, List.nil_append, readLengthAux, h127,
        lt128_and128 n hnlt, List.length_singleton, Nat.shiftLeft_eq]
      simp
    · have hrlt : n >>> 7 < 2 ^ (7 * fuel) := by
        rw [shr7_eq_div]
        rw [pow7_succ_eq] at hn
        omega
      have hr1 : 1 ≤ n >>> 7 := by omega
      have hv : n &&& 127 < 128 := by rw [and127_eq_mod]; omega
      have hb : writeLengthAux (fuel + 1) n
          = ((n &&& 127) ||| 128) :: writeLengthAux fuel (n >>> 7) := by
        simp [writeLengthAux, hn0, hr]
      rw [hb]
      simp only [List.cons_append, readLengthAux, or128_and127 _ hv, or128_and128 _ hv]
      rw [if_neg (by omega)]
      rw [List.append_eq]
      rw [ih (n >>> 7) hrlt hr1 tail (i + 1) (total + ((n &&& 127) <<< (7 * i)))]
      have harith : total + ((n &&& 127) <<< (7 * i)) + (n >>> 7) * 2 ^ (7 * (i + 1))
          = total + n * 2 ^ (7 * i) := by
        rw [Nat.shiftLeft_eq, and127_eq_mod, shr7_eq_div, pow7_succ_eq]
        have hmd := Nat.mod_add_div n 128
        calc total + n % 128 * 2 ^ (7 * i) + n / 128 * (2 ^ (7 * i) * 128)
            = total + (n % 128 + 128 * (n / 128)) * 2 ^ (7 * i) := by ring
          _ = total + n * 2 ^ (7 * i) := by rw [hmd]
      rw [harith]
      simp only [List.length_cons]
      congr 2
      omega

/-- The number of bytes the `writeLength` loop emits, characterised by its
defining property: it is the least `k` with `n < 2 ^ (7 * k)`. -/
theorem writeLengthAux_length_le : ∀ fuel n : Nat, n < 2 ^ (7 * fuel) →
    ∀ k, ((writeLengthAux fuel n).length ≤ k ↔ n < 2 ^ (7 * k)) := by
  intro fuel
  induction fuel with
  | zero =>
    intro n hn k
    simp at hn
    subst hn
    simp [writeLengthAux, Nat.pos_pow_of_pos]
  | succ fuel ih =>
    intro n hn k
    by_cases hn0 : n = 0
    · subst hn0
      simp [writeLengthAux_zero, Nat.pos_pow_of_pos]
    · have hb : (writeLengthAux (fuel + 1) n).length
          = (writeLengthAux fuel (n >>> 7)).length + 1 := by
        by_cases hr : n >>> 7 = 0 <;> simp [writeLengthAux, hn0, hr]
      rw [hb]
      have hrlt : n >>> 7 < 2 ^ (7 * fuel) := by
        rw [shr7_eq_div]
        rw [pow7_succ_eq] at hn
        omega
      cases k with
      | zero =>
        simp only [Nat.mul_zero, pow_zero]
        omega
      | succ k =>
        rw [Nat.succ_le_succ_iff, ih (n >>> 7) hrlt k, pow7_succ_eq, shr7_eq_div]
        omega

/-- Go `bits.Len`, characterised: `bitsLenAux fuel n` is the least `k` with
`n < 2 ^ k`, provided the fuel bounds `n`. -/
theorem bitsLenAux_le : ∀ fuel n : Nat, n < 2 ^ fuel →
    ∀ k, (bitsLenAux fuel n ≤ k ↔ n < 2 ^ k) := by
  intro fuel
  induction fuel with
  | zero =>
    intro n hn k
    simp at hn
    subst hn
    simp [bitsLenAux, Nat.pos_pow_of_pos]
  | succ fuel ih =>
    intro n hn k
    by_cases hn0 : n = 0
    · subst hn0
      simp [bitsLenAux, Nat.pos_pow_of_pos]
    · have hb : bitsLenAux (fuel + 1) n = bitsLenAux fuel (n / 2) + 1 := by
        simp [bitsLenAux, hn0]
      rw [hb]
      have hrlt : n / 2 < 2 ^ fuel := by
        rw [pow_succ] at hn
        omega
      cases k with
      | zero =>
        simp only [pow_zero]
        omega
      | succ k =>
        rw [Nat.succ_le_succ_iff, ih (n / 2) hrlt k, pow_succ]
        omega

/-- `spaceForLength`, characterised the same way (for 64-bit inputs). -/
theorem spaceForLength_le (n : Nat) (hn : n < 2 ^ 64) (k : Nat) :
    spaceForLength n ≤ k ↔ n < 2 ^ (7 * k) := by
  unfold spaceForLength bitsLen
  rw [← bitsLenAux_le 64 n hn (7 * k)]
  omega

theorem lt_pow_seventy (n : Nat) (hn : n < 2 ^ 64) : n < 2 ^ (7 * 10) := by
  have h : (2 : Nat) ^ 64 ≤ 2 ^ 70 := Nat.pow_le_pow_right (by norm_num) (by norm_num)
  omega

/-- `writeLength` writes exactly `spaceForLength n` bytes (the source's
`TestLengths` asserts this for sample values). -/
theorem writeLengthBytes_length (n : Nat) (hn : n < 2 ^ 64) :
    (writeLengthBytes n).length = spaceForLength n := by
  have h70 := lt_pow_seventy n hn
  have hw := writeLengthAux_length_le 10 n h70
  apply Nat.le_antisymm
  · rw [writeLengthBytes, hw, ← spaceForLength_le n hn]
  · rw [spaceForLength_le n hn, writeLengthBytes, ← hw]

/-- Decoding an encoded positive value, with arbitrary following bytes,
returns the value and the encoded width. -/
theorem readLength_writeLengthBytes (n : Nat) (h1 : 1 ≤ n) (hn : n < 2 ^ 64)
    (tail : List Nat) :
    readLength (writeLengthBytes n ++ tail) = some (n, spaceForLength n) := by
  have h70 := lt_pow_seventy n hn
  rw [readLength, writeLengthBytes,
    readLengthAux_writeLengthAux 10 n h70 h1 tail 0 0]
  simp [← writeLengthBytes_length n hn, writeLengthBytes]

theorem spaceForLength_pos (n : Nat) (h1 : 1 ≤ n) (hn : n < 2 ^ 64) :
    1 ≤ spaceForLength n := by
  by_contra h
  have h0 : spaceForLength n ≤ 0 := by omega
  rw [spaceForLength_le n hn 0] at h0
  simp at h0
  omega

theorem spaceForLength_mono (m n : Nat) (hmn : m ≤ n) (hn : n < 2 ^ 64) :
    spaceForLength m ≤ spaceForLength n := by
  have hm : m < 2 ^ 64 := by omega
  rw [spaceForLength_le m hm]
  have h := (spaceForLength_le n hn (spaceForLength n)).mp (Nat.le_refl _)
  omega

theorem stringbankSize_eq : stringbankSize = 262144 := rfl

theorem stringbankSize_lt : stringbankSize < 2 ^ 64 := by decide

theorem currentLen_concat (qq : List (List Nat)) (pp : List Nat) :
    currentLen (qq ++ [pp]) = pp.length := by
  simp [currentLen, List.getLast?_concat]

theorem currentCap_ne_nil (pages : List (List Nat)) (h : pages ≠ []) :
    currentCap pages = stringbankSize := by
  cases pages with
  | nil => exact absurd rfl h
  | cons p ps => rfl

theorem currentLen_le (pages : List (List Nat)) (hwf : WF pages) :
    currentLen pages ≤ stringbankSize := by
  unfold currentLen
  cases hl : pages.getLast? with
  | none => exact Nat.zero_le _
  | some p => exact hwf p (List.mem_of_getLast?_eq_some hl)

theorem writeRecord_concat (qq : List (List Nat)) (pp rec : List Nat) :
    writeRecord (qq ++ [pp]) rec = qq ++ [pp ++ rec] := by
  cases qq with
  | nil => simp [writeRecord]
  | cons q qs =>
    have h2 : writeRecord ((q :: qs) ++ [pp]) rec
        = ((q :: qs) ++ [pp]).dropLast ++ [((q :: qs) ++ [pp]).getLast?.getD [] ++ rec] := rfl
    rw [h2, List.dropLast_concat, List.getLast?_concat]
    rfl

theorem getD_concat_self (l : List (List Nat)) (a d : List Nat) :
    (l ++ [a]).getD l.length d = a := by
  rw [List.getD_eq_getElem?_getD, List.getElem?_concat_length]
  rfl

theorem getD_append_lt (l l2 : List (List Nat)) (i : Nat) (d : List Nat)
    (h : i < l.length) : (l ++ l2).getD i d = l.getD i d := by
  rw [List.getD_eq_getElem?_getD, List.getD_eq_getElem?_getD,
    List.getElem?_append_left h]

/-- What `reserve pages l = some (idx, p1)` tells us: `p1` is `pages`, with
a fresh page appended when the current page lacked room; the reservation
fits the current page of `p1`; and `idx` is the flat index of the write
position. -/
theorem reserve_spec (pages : List (List Nat)) (l : Nat) (idx : Int)
    (p1 : List (List Nat)) (h : reserve pages l = some (idx, p1)) :
    p1 = (if currentCap pages < currentLen pages + l then pages ++ [[]] else pages) ∧
    currentLen p1 + l ≤ currentCap p1 ∧
    idx = ((p1.length : Int) - 1) * (stringbankSize : Int) + (currentLen p1 : Nat) := by
  simp only [reserve] at h
  by_cases hc : currentCap pages < currentLen pages + l
  · rw [if_pos hc] at h ⊢
    by_cases hg : currentCap (pages ++ [[]]) < currentLen (pages ++ [[]]) + l
    · rw [if_pos hg] at h
      exact absurd h (by simp)
    · rw [if_neg hg] at h
      rw [Option.some_inj] at h
      injection h with h1 h2
      subst h1
      subst h2
      exact ⟨rfl, by omega, rfl⟩
  · rw [if_neg hc] at h ⊢
    rw [if_neg hc] at h
    rw [Option.some_inj] at h
    injection h with h1 h2
    subst h1
    subst h2
    exact ⟨rfl, by omega, rfl⟩

/-- What a successful `save` of a nonempty string did: the final state
decomposes as `qq ++ [pp ++ record]` — the record was appended to the
current page (which is fresh, `pp = []`, exactly when the old current page
lacked room), the returned index addresses the record's first byte inside
that page, and the record fits within the page. -/
theorem save_spec (pages : List (List Nat)) (s : List Nat) (idx : Int)
    (p' : List (List Nat)) (h : save pages s = some (idx, p'))
    (hs : 1 ≤ s.length) :
    ∃ qq pp,
      p' = qq ++ [pp ++ (writeLengthBytes s.length ++ s)] ∧
      idx = (qq.length : Int) * (stringbankSize : Int) + (pp.length : Nat) ∧
      pp.length + ((writeLengthBytes s.length).length + s.length) ≤ stringbankSize ∧
      (writeLengthBytes s.length).length = spaceForLength s.length ∧
      (pages = qq ++ [pp] ∨ (pp = [] ∧ qq = pages)) := by
  simp only [save] at h
  rcases Option.map_eq_some'.mp h with ⟨⟨idx1, p1⟩, hres, hmap⟩
  simp only at hmap
  injection hmap with hidx hp'
  obtain ⟨hp1, hfit, hidx1⟩ := reserve_spec pages _ idx1 p1 hres
  have hp1ne : p1 ≠ [] := by
    intro hnil
    subst hnil
    by_cases hc : currentCap pages
        < currentLen pages + (s.length + spaceForLength s.length)
    · rw [if_pos hc] at hp1
      exact absurd hp1.symm (by simp)
    · rw [if_neg hc] at hp1
      simp only [show currentLen ([] : List (List Nat)) = 0 from rfl,
        show currentCap ([] : List (List Nat)) = 0 from rfl] at hfit
      omega
  obtain ⟨qq, pp, hdec⟩ : ∃ qq pp, qq ++ [pp] = p1 :=
    ⟨p1.dropLast, p1.getLast hp1ne, List.dropLast_concat_getLast hp1ne⟩
  rw [← hdec] at hfit hidx1 hp' hp1
  have hne2 : qq ++ [pp] ≠ [] := by simp
  rw [currentLen_concat, currentCap_ne_nil _ hne2] at hfit
  have hlen64 : s.length < 2 ^ 64 := by
    have := stringbankSize_lt
    omega
  have hw := writeLengthBytes_length s.length hlen64
  refine ⟨qq, pp, ?_, ?_, ?_, hw, ?_⟩
  · rw [← hp', writeRecord_concat]
  · rw [← hidx, hidx1, currentLen_concat, List.length_append,
      List.length_singleton, stringbankSize_eq]
    push_cast
    ring
  · omega
  · by_cases hc : currentCap pages
        < currentLen pages + (s.length + spaceForLength s.length)
    · rw [if_pos hc] at hp1
      refine Or.inr ⟨?_, ?_⟩
      · have h2 := congrArg List.getLast? hp1
        simp only [List.getLast?_concat] at h2
        exact (Option.some.injEq _ _).mp h2
      · have h2 := congrArg List.dropLast hp1
        simpa [List.dropLast_concat] using h2
    · rw [if_neg hc] at hp1
      exact Or.inl hp1.symm

/-- Go's truncating `/` and `%` recover the page index and offset from a
flat index `i * stringbankSize + off` with `off < stringbankSize`. -/
theorem tdiv_tmod_flat (i off : Nat) (hoff : off < stringbankSize) :
    Int.tdiv ((i : Int) * (stringbankSize : Int) + (off : Nat)) (stringbankSize : Int)
        = (i : Int) ∧
    Int.tmod ((i : Int) * (stringbankSize : Int) + (off : Nat)) (stringbankSize : Int)
        = (off : Int) := by
  have h1 : (i : Int) * (stringbankSize : Int) + ((off : Nat) : Int)
      = ((i * stringbankSize + off : Nat) : Int) := by
    push_cast
    ring
  rw [h1, ← Int.ofNat_tdiv, ← Int.ofNat_tmod]
  rw [stringbankSize_eq] at hoff ⊢
  constructor
  · norm_cast
    omega
  · norm_cast
    omega

/-- The body of `get` with its let-bindings expanded. -/
theorem get_eq (pages : List (List Nat)) (index : Int) :
    get pages index =
      if 0 ≤ Int.tdiv index (stringbankSize : Int) ∧
          (Int.tdiv index (stringbankSize : Int)).toNat < pages.length ∧
          0 ≤ Int.tmod index (stringbankSize : Int) then
        match readLength ((pageBytes
            (pages.getD (Int.tdiv index (stringbankSize : Int)).toNat [])).drop
            (Int.tmod index (stringbankSize : Int)).toNat) with
        | none => none
        | some (l, llen) =>
          if (Int.tmod index (stringbankSize : Int)).toNat + llen + l
              ≤ stringbankSize then
            some (((pageBytes
              (pages.getD (Int.tdiv index (stringbankSize : Int)).toNat [])).drop
              ((Int.tmod index (stringbankSize : Int)).toNat + llen)).take l)
          else none
      else none := rfl

/-- Reading at an index established by `Saved` returns the stored string:
the length prefix decodes inside the record and the payload slice is the
stored bytes. -/
theorem get_saved (pages : List (List Nat)) (idx : Int) (s : List Nat)
    (h : Saved pages idx s) (hs : 1 ≤ s.length) :
    get pages idx = some s := by
  obtain ⟨i, pre, tail, hidx, hi, hpage, hbound, hw1⟩ := h
  have hoff : pre.length < stringbankSize := by omega
  have hlen64 : s.length < 2 ^ 64 := by
    have := stringbankSize_lt
    omega
  have hw := writeLengthBytes_length s.length hlen64
  obtain ⟨hdiv, hmod⟩ := tdiv_tmod_flat i pre.length hoff
  subst hidx
  rw [get_eq]
  rw [hdiv, hmod]
  rw [if_pos ⟨Int.ofNat_nonneg i,
    by rw [Int.toNat_ofNat]; exact hi, Int.ofNat_nonneg pre.length⟩]
  simp only [Int.toNat_ofNat]
  have h1 : pageBytes (pages.getD i [])
      = pre ++ (writeLengthBytes s.length ++ (s ++ (tail ++
          List.replicate (stringbankSize - (pages.getD i []).length) 0))) := by
    rw [pageBytes, hpage]
    simp [List.append_assoc]
  rw [h1, List.drop_left,
    readLength_writeLengthBytes s.length hs hlen64 _]
  simp only []
  rw [if_pos (by omega)]
  have h2 : pre ++ (writeLengthBytes s.length ++ (s ++ (tail ++
          List.replicate (stringbankSize - (pages.getD i []).length) 0)))
      = (pre ++ writeLengthBytes s.length) ++ (s ++ (tail ++
          List.replicate (stringbankSize - (pages.getD i []).length) 0)) := by
    simp [List.append_assoc]
  rw [h2, List.drop_left' (by rw [List.length_append, hw]),
    List.take_left' rfl]

/-- A successful `save` of a nonempty string establishes `Saved` for the
returned index. -/
theorem saved_of_save (pages : List (List Nat)) (s : List Nat) (idx : Int)
    (p' : List (List Nat)) (h : save pages s = some (idx, p'))
    (hs : 1 ≤ s.length) : Saved p' idx s := by
  obtain ⟨qq, pp, hp', hidx, hfit, hw, _⟩ := save_spec pages s idx p' h hs
  have hlen64 : s.length < 2 ^ 64 := by
    have := stringbankSize_lt
    omega
  refine ⟨qq.length, pp, [], hidx, ?_, ?_, by omega, ?_⟩
  · rw [hp']
    simp
  · rw [hp', getD_concat_self]
    simp [List.append_assoc]
  · rw [hw]
    exact spaceForLength_pos s.length hs hlen64

/-- Any later `save` only appends: pages other than the current one are
untouched, and the current page only grows at its end. -/
theorem save_extends (q : List (List Nat)) (t : List Nat) (idx : Int)
    (q' : List (List Nat)) (h : save q t = some (idx, q')) :
    q.length ≤ q'.length ∧
    ∀ i, i < q.length → ∃ ext, q'.getD i [] = q.getD i [] ++ ext := by
  simp only [save] at h
  rcases Option.map_eq_some'.mp h with ⟨⟨idx1, p1⟩, hres, hmap⟩
  simp only at hmap
  injection hmap with hidx hp'
  obtain ⟨hp1, hfit, hidx1⟩ := reserve_spec q _ idx1 p1 hres
  by_cases hc : currentCap q < currentLen q + (t.length + spaceForLength t.length)
  · rw [if_pos hc] at hp1
    rw [hp1] at hp'
    rw [← hp', writeRecord_concat]
    refine ⟨by simp, fun i hi => ⟨[], ?_⟩⟩
    rw [getD_append_lt _ _ _ _ hi, List.append_nil]
  · rw [if_neg hc] at hp1
    rw [hp1] at hp'
    cases hq : q.reverse with
    | nil =>
      have hqnil : q = [] := by
        have h2 := congrArg List.reverse hq
        simpa using h2
      subst hqnil
      rw [← hp']
      exact ⟨Nat.le_refl _, fun i hi => absurd hi (by simp)⟩
    | cons pp qqr =>
      have hqd : qqr.reverse ++ [pp] = q := by
        have h2 := congrArg List.reverse hq
        simp at h2
        exact h2.symm
      rw [← hqd] at hp' ⊢
      rw [← hp', writeRecord_concat]
      refine ⟨by simp, fun i hi => ?_⟩
      simp only [List.length_append, List.length_singleton] at hi
      by_cases hilt : i < qqr.reverse.length
      · exact ⟨[], by
          rw [getD_append_lt _ _ _ _ hilt, getD_append_lt _ _ _ _ hilt,
            List.append_nil]⟩
      · have hieq : i = qqr.reverse.length := by omega
        subst hieq
        rw [getD_concat_self, getD_concat_self]
        exact ⟨writeLengthBytes t.length ++ t, rfl⟩

/-- `Saved` is preserved by any later successful `save`. -/
theorem saved_mono (q : List (List Nat)) (t : List Nat) (idx0 : Int)
    (q' : List (List Nat)) (hsv : save q t = some (idx0, q'))
    (idx : Int) (s : List Nat) (h : Saved q idx s) : Saved q' idx s := by
  obtain ⟨hlen, hext⟩ := save_extends q t idx0 q' hsv
  obtain ⟨i, pre, tail, hidx, hi, hpage, hbound, hw1⟩ := h
  obtain ⟨ext, hext'⟩ := hext i hi
  refine ⟨i, pre, tail ++ ext, hidx, by omega, ?_, hbound, hw1⟩
  rw [hext', hpage]
  simp [List.append_assoc]

/-- Splitting a successful `saveList` on a cons. -/
theorem saveList_cons (pages : List (List Nat)) (s : List Nat)
    (L : List (List Nat)) (out : List Int) (p' : List (List Nat))
    (h : saveList pages (s :: L) = some (out, p')) :
    ∃ idx p1 out1, save pages s = some (idx, p1) ∧
      saveList p1 L = some (out1, p') ∧ out = idx :: out1 := by
  simp only [saveList] at h
  rcases Option.bind_eq_some.mp h with ⟨⟨idx, p1⟩, hsv, hrest⟩
  rcases Option.map_eq_some'.mp hrest with ⟨⟨out1, p2⟩, hsl, hmap⟩
  simp only at hmap
  injection hmap with h1 h2
  subst h2
  exact ⟨idx, p1, out1, hsv, hsl, h1.symm⟩

/-- `Saved` is preserved by any later successful sequence of saves. -/
theorem saved_saveList_mono (L : List (List Nat)) : ∀ (pages : List (List Nat))
    (out : List Int) (p' : List (List Nat)),
    saveList pages L = some (out, p') →
    ∀ idx s, Saved pages idx s → Saved p' idx s := by
  induction L with
  | nil =>
    intro pages out p' h idx s hs
    simp only [saveList, Option.some_inj] at h
    injection h with h1 h2
    rw [← h2]
    exact hs
  | cons t L ih =>
    intro pages out p' h idx s hs
    obtain ⟨idx1, p1, out1, hsv, hsl, _⟩ := saveList_cons pages t L out p' h
    exact ih p1 out1 p' hsl idx s (saved_mono pages t idx1 p1 hsv idx s hs)

/-- A successful `save` advances the write position `pos` from at or after
the returned index to exactly `index + reserved size`, and preserves
well-formedness. -/
theorem save_pos_WF (pages : List (List Nat)) (t : List Nat) (idx : Int)
    (p' : List (List Nat)) (h : save pages t = some (idx, p'))
    (hwf : WF pages) :
    pos pages ≤ idx ∧
    pos p' = idx + ((t.length + spaceForLength t.length : Nat) : Int) ∧
    WF p' := by
  simp only [save] at h
  rcases Option.map_eq_some'.mp h with ⟨⟨idx1, p1⟩, hres, hmap⟩
  simp only at hmap
  injection hmap with hidx hp'
  obtain ⟨hp1, hfit, hidx1⟩ := reserve_spec pages _ idx1 p1 hres
  subst hidx
  have hcap : currentCap p1 ≤ stringbankSize := by
    cases p1 with
    | nil => exact Nat.zero_le _
    | cons a as => exact Nat.le_refl _
  have hsz : t.length + spaceForLength t.length ≤ stringbankSize := by omega
  have hlen64 : t.length < 2 ^ 64 := by
    have := stringbankSize_lt
    omega
  have hrec : (writeLengthBytes t.length ++ t).length
      = t.length + spaceForLength t.length := by
    rw [List.length_append, writeLengthBytes_length t.length hlen64]
    omega
  have hcl := currentLen_le pages hwf
  by_cases hc : currentCap pages < currentLen pages + (t.length + spaceForLength t.length)
  · rw [if_pos hc] at hp1
    rw [hp1] at hp' hidx1
    rw [← hp', writeRecord_concat]
    have hcl1 : currentLen (pages ++ [[]]) = 0 := by
      rw [currentLen_concat]
      rfl
    rw [hcl1, List.length_append, List.length_singleton] at hidx1
    refine ⟨?_, ?_, ?_⟩
    · unfold pos
      rw [hidx1, stringbankSize_eq]
      have hcl2 : currentLen pages ≤ 262144 := hcl
      push_cast
      omega
    · unfold pos
      rw [hidx1]
      simp only [List.nil_append, currentLen_concat, hrec,
        List.length_append, List.length_singleton, stringbankSize_eq]
      push_cast
      ring
    · intro p hp
      rcases List.mem_append.mp hp with hp2 | hp2
      · exact hwf p hp2
      · rw [List.mem_singleton] at hp2
        subst hp2
        rw [List.nil_append, hrec]
        exact hsz
  · rw [if_neg hc] at hp1
    rw [hp1] at hp' hidx1 hfit
    cases hq : pages.reverse with
    | nil =>
      have hqnil : pages = [] := by
        have h2 := congrArg List.reverse hq
        simpa using h2
      subst hqnil
      rw [← hp']
      have hcl0 : currentLen ([] : List (List Nat)) = 0 := rfl
      have hcap0 : currentCap ([] : List (List Nat)) = 0 := rfl
      rw [hcl0, hcap0] at hfit
      have hsz0 : t.length + spaceForLength t.length = 0 := by omega
      have hwr : writeRecord [] (writeLengthBytes t.length ++ t) = [] := rfl
      rw [hwr]
      refine ⟨by rw [hidx1]; exact le_refl _, ?_, by intro p hp; simp at hp⟩
      rw [hidx1, hsz0]
      unfold pos
      push_cast
      ring
    | cons pp qqr =>
      have hqd : qqr.reverse ++ [pp] = pages := by
        have h2 := congrArg List.reverse hq
        simp at h2
        exact h2.symm
      rw [← hqd] at hp' hfit hidx1 hcl hwf ⊢
      rw [← hp', writeRecord_concat]
      rw [currentLen_concat] at hidx1 hfit hcl
      rw [currentCap_ne_nil _ (by simp)] at hfit
      refine ⟨?_, ?_, ?_⟩
      · unfold pos
        rw [hidx1]
        simp only [currentLen_concat]
        exact le_refl _
      · unfold pos
        rw [hidx1]
        simp only [currentLen_concat, List.length_append,
          List.length_singleton, hrec, stringbankSize_eq]
        push_cast
        ring
      · intro p hp
        rcases List.mem_append.mp hp with hp2 | hp2
        · exact hwf p (List.mem_append.mpr (Or.inl hp2))
        · rw [List.mem_singleton] at hp2
          subst hp2
          rw [List.length_append, hrec]
          omega

/-- Along a successful sequence of saves of nonempty strings the returned
indices are strictly increasing, all at or after the starting position, and
well-formedness is preserved. -/
theorem saveList_chain (L : List (List Nat)) : ∀ (pages : List (List Nat))
    (out : List Int) (p' : List (List Nat)),
    saveList pages L = some (out, p') → WF pages →
    (∀ t ∈ L, 1 ≤ t.length) →
    List.Pairwise (· < ·) out ∧ (∀ x ∈ out, pos pages ≤ x) ∧ WF p' := by
  induction L with
  | nil =>
    intro pages out p' h hwf _
    simp only [saveList, Option.some_inj] at h
    injection h with h1 h2
    subst h2
    rw [← h1]
    exact ⟨List.Pairwise.nil, by simp, hwf⟩
  | cons t L ih =>
    intro pages out p' h hwf hne
    obtain ⟨idx, p1, out1, hsv, hsl, hout⟩ := saveList_cons pages t L out p' h
    obtain ⟨hle, heq, hwf1⟩ := save_pos_WF pages t idx p1 hsv hwf
    obtain ⟨hpair, hbnd, hwf2⟩ :=
      ih p1 out1 p' hsl hwf1 (fun u hu => hne u (List.mem_cons_of_mem _ hu))
    have ht1 : 1 ≤ t.length := hne t (List.mem_cons_self _ _)
    have hszpos : (1 : Int) ≤ ((t.length + spaceForLength t.length : Nat) : Int) := by
      push_cast
      omega
    have hstrict : ∀ x ∈ out1, idx < x := by
      intro x hx
      have h1 := hbnd x hx
      omega
    subst hout
    refine ⟨List.Pairwise.cons hstrict hpair, ?_, hwf2⟩
    intro x hx
    rcases List.mem_cons.mp hx with rfl | hx'
    · exact hle
    · have h1 := hbnd x hx'
      omega

theorem getD_eq_getElem {α : Type} (l : List α) (n : Nat) (d : α) (h : n < l.length) :
    l.getD n d = l[n] := by
  rw [List.getD_eq_getElem?_getD, List.getElem?_eq_getElem h]
  rfl

theorem drop_eq_getD_cons (l : List Nat) (n : Nat) (h : n < l.length) :
    l.drop n = l.getD n 0 :: l.drop (n + 1) := by
  rw [getD_eq_getElem l n 0 h]
  exact List.drop_eq_getElem_cons h

set_option maxRecDepth 4000 in
theorem and128_lt : ∀ v, v < 256 → v &&& 128 = 0 → v < 128 := by decide

theorem lt128_and127 : ∀ v, v < 128 → v &&& 127 = v := by decide

/-- A first byte with the continuation bit clear decodes on its own,
consuming one byte. -/
theorem readLength_cons_clear (v : Nat) (rest : List Nat) (hv : v < 128) :
    readLength (v :: rest) = some (v, 1) := by
  simp only [readLength, readLengthAux, lt128_and128 v hv, lt128_and127 v hv,
    if_pos rfl, Nat.shiftLeft_eq]
  norm_num

/-- `bits.Len` agrees with Mathlib's `Nat.size` on 64-bit values. -/
theorem bitsLen_eq_size (n : Nat) (hn : n < 2 ^ 64) : bitsLen n = Nat.size n := by
  have hc := bitsLenAux_le 64 n hn
  apply Nat.le_antisymm
  · rw [bitsLen, hc]
    exact Nat.lt_size_self n
  · rw [Nat.size_le, ← hc]
    exact Nat.le_refl _

/-- Lengths `1..127` get the one-byte prefix `[len]`. -/
theorem writeLengthBytes_small (l : Nat) (h1 : 1 ≤ l) (h2 : l ≤ 127) :
    writeLengthBytes l = [l] := by
  have hz : l ≠ 0 := by omega
  have hr : l >>> 7 = 0 := by
    rw [shr7_eq_div]
    omega
  simp [writeLengthBytes, writeLengthAux, hz, hr, writeLengthAux_zero,
    and127_eq_mod]
  omega

theorem spaceForLength_small (l : Nat) (h1 : 1 ≤ l) (h2 : l ≤ 127) :
    spaceForLength l = 1 := by
  have h64 : l < 2 ^ 64 := by
    have : (127 : Nat) < 2 ^ 64 := by norm_num
    omega
  apply Nat.le_antisymm
  · rw [spaceForLength_le l h64]
    norm_num
    omega
  · exact spaceForLength_pos l h1 h64

/-- The outcome of the `mmap.Alloc` call is discarded: the offheap `reserve`
coincides with the heap `reserve` whatever the system call reported. -/
theorem reserveOff_eq (res : AllocResult) (pages : List (List Nat)) (l : Nat) :
    reserveOff res pages l = reserve pages l := by
  cases res <;> rfl

/-- The body of `getOff` with its let-bindings expanded. -/
theorem getOff_eq (pages : List (List Nat)) (index : Int) :
    getOff pages index =
      if 0 ≤ Int.tdiv index (stringbankSize : Int) ∧
          (Int.tdiv index (stringbankSize : Int)).toNat < pages.length ∧
          0 ≤ Int.tmod index (stringbankSize : Int) then
        if (pageBytes (pages.getD (Int.tdiv index (stringbankSize : Int)).toNat [])).getD
            (Int.tmod index (stringbankSize : Int)).toNat 0 &&& 0x80 = 0 then
          if (Int.tmod index (stringbankSize : Int)).toNat + 1 +
              (pageBytes (pages.getD (Int.tdiv index (stringbankSize : Int)).toNat [])).getD
                (Int.tmod index (stringbankSize : Int)).toNat 0 ≤ stringbankSize then
            some (((pageBytes
              (pages.getD (Int.tdiv index (stringbankSize : Int)).toNat [])).drop
              ((Int.tmod index (stringbankSize : Int)).toNat + 1)).take
              ((pageBytes (pages.getD (Int.tdiv index (stringbankSize : Int)).toNat [])).getD
                (Int.tmod index (stringbankSize : Int)).toNat 0))
          else none
        else
          match readLength ((pageBytes
              (pages.getD (Int.tdiv index (stringbankSize : Int)).toNat [])).drop
              (Int.tmod index (stringbankSize : Int)).toNat) with
          | none => none
          | some (l, llen) =>
            if (Int.tmod index (stringbankSize : Int)).toNat + llen + l
                ≤ stringbankSize then
              some (((pageBytes
                (pages.getD (Int.tdiv index (stringbankSize : Int)).toNat [])).drop
                ((Int.tmod index (stringbankSize : Int)).toNat + llen)).take l)
            else none
      else none := rfl

/-- Every byte of a page's padded content is a byte (the written run is, and
the zero padding is). -/
theorem pageBytes_lt (p : List Nat) (hp : ∀ b ∈ p, b < 256) :
    ∀ b ∈ pageBytes p, b < 256 := by
  intro b hb
  rcases List.mem_append.mp hb with h | h
  · exact hp b h
  · rw [List.eq_of_mem_replicate h]
    norm_num

theorem pageBytes_len (p : List Nat) : stringbankSize ≤ (pageBytes p).length := by
  rw [pageBytes, List.length_append, List.length_replicate]
  omega

/-- The `Get` fast path agrees with the general `readLength` path: `getOff`
and `get` coincide on byte-valued pages. -/
theorem getOff_eq_get (pages : List (List Nat)) (index : Int)
    (hb : BytesWF pages) : getOff pages index = get pages index := by
  rw [getOff_eq, get_eq]
  by_cases hg : 0 ≤ Int.tdiv index (stringbankSize : Int) ∧
      (Int.tdiv index (stringbankSize : Int)).toNat < pages.length ∧
      0 ≤ Int.tmod index (stringbankSize : Int)
  · rw [if_pos hg, if_pos hg]
    have hofflt : (Int.tmod index (stringbankSize : Int)).toNat < stringbankSize := by
      have h1 := Int.tmod_lt_of_pos index
        (show (0 : Int) < (stringbankSize : Int) by
          rw [stringbankSize_eq]; norm_num)
      omega
    have hpmem : ∀ b ∈ pages.getD (Int.tdiv index (stringbankSize : Int)).toNat [], b < 256 := by
      intro b hbm
      refine hb _ ?_ b hbm
      rw [getD_eq_getElem _ _ _ hg.2.1]
      exact List.getElem_mem hg.2.1
    have hdata := pageBytes_lt _ hpmem
    have hdlen := pageBytes_len (pages.getD (Int.tdiv index (stringbankSize : Int)).toNat [])
    have hoffdata : (Int.tmod index (stringbankSize : Int)).toNat
        < (pageBytes (pages.getD (Int.tdiv index (stringbankSize : Int)).toNat [])).length := by
      omega
    have hv256 : (pageBytes (pages.getD (Int.tdiv index (stringbankSize : Int)).toNat [])).getD
        (Int.tmod index (stringbankSize : Int)).toNat 0 < 256 := by
      refine hdata _ ?_
      rw [getD_eq_getElem _ _ _ hoffdata]
      exact List.getElem_mem hoffdata
    by_cases hv : (pageBytes (pages.getD (Int.tdiv index (stringbankSize : Int)).toNat [])).getD
        (Int.tmod index (stringbankSize : Int)).toNat 0 &&& 0x80 = 0
    · rw [if_pos hv]
      have hv128 := and128_lt _ hv256 hv
      rw [drop_eq_getD_cons _ _ hoffdata, readLength_cons_clear _ _ hv128]
    · rw [if_neg hv]
  · rw [if_neg hg, if_neg hg]

/-- The `Save` fast path writes the same record and returns the same index
as the general path for lengths `1..127`. -/
theorem saveOff_ok_eq_save (pages : List (List Nat)) (s : List Nat)
    (h1 : 1 ≤ s.length) (h2 : s.length ≤ 127) :
    saveOff AllocResult.ok pages s = save pages s := by
  simp only [saveOff, save, reserveOff_eq, if_pos (show s.length ≤ 0x7F from h2),
    writeLengthBytes_small s.length h1 h2, spaceForLength_small s.length h1 h2]
  rfl

/-- With every `Free` call succeeding, the close loop frees all `n`
allocations and reports no error. -/
theorem closeLoop_ok (freeOk : Nat → Bool) :
    ∀ (n i : Nat), (∀ j, j < n → freeOk (i + j) = true) →
    closeLoop freeOk i n = (i + n, none) := by
  intro n
  induction n with
  | zero => intro i h; rfl
  | succ n ih =>
    intro i h
    have h0 : freeOk i = true := by
      have := h 0 (by omega)
      simpa using this
    simp only [closeLoop, h0, if_true, ite_true]
    rw [ih (i + 1) (fun j hj => by
      have h2 := h (j + 1) (by omega)
      have h3 : i + (j + 1) = i + 1 + j := by omega
      rw [h3] at h2
      exact h2)]
    have h4 : i + 1 + n = i + (n + 1) := by omega
    rw [h4]

/-- A later `save` never writes to any page other than the current one:
pages before the last are frozen. -/
theorem save_frozen (q : List (List Nat)) (t : List Nat) (idx : Int)
    (q' : List (List Nat)) (h : save q t = some (idx, q')) :
    ∀ i, i + 1 < q.length → q'.getD i [] = q.getD i [] := by
  simp only [save] at h
  rcases Option.map_eq_some'.mp h with ⟨⟨idx1, p1⟩, hres, hmap⟩
  simp only at hmap
  injection hmap with hidx hp'
  obtain ⟨hp1, hfit, hidx1⟩ := reserve_spec q _ idx1 p1 hres
  by_cases hc : currentCap q < currentLen q + (t.length + spaceForLength t.length)
  · rw [if_pos hc] at hp1
    rw [hp1] at hp'
    rw [← hp', writeRecord_concat]
    intro i hi
    exact getD_append_lt _ _ _ _ (by omega)
  · rw [if_neg hc] at hp1
    rw [hp1] at hp'
    cases hq : q.reverse with
    | nil =>
      have hqnil : q = [] := by
        have h2 := congrArg List.reverse hq
        simpa using h2
      subst hqnil
      intro i hi
      simp at hi
    | cons pp qqr =>
      have hqd : qqr.reverse ++ [pp] = q := by
        have h2 := congrArg List.reverse hq
        simp at h2
        exact h2.symm
      rw [← hqd] at hp' ⊢
      rw [← hp', writeRecord_concat]
      intro i hi
      simp only [List.length_append, List.length_singleton] at hi
      rw [getD_append_lt _ _ _ _ (by omega), getD_append_lt _ _ _ _ (by omega)]

/-- Reserving at most a page's worth always succeeds. -/
theorem reserve_total (pages : List (List Nat)) (l : Nat) (hl : l ≤ stringbankSize) :
    ∃ idx p1, reserve pages l = some (idx, p1) := by
  simp only [reserve]
  by_cases hc : currentCap pages < currentLen pages + l
  · rw [if_pos hc]
    have hg : ¬currentCap (pages ++ [[]]) < currentLen (pages ++ [[]]) + l := by
      rw [currentLen_concat pages [], currentCap_ne_nil _ (by simp)]
      simp
      omega
    rw [if_neg hg]
    exact ⟨_, _, rfl⟩
  · rw [if_neg hc, if_neg hc]
    exact ⟨_, _, rfl⟩
example : stringbankSize = 262144 := by decide
example : spaceForLength 0 = 0 := by decide
example : save [] [] = some (-262144, []) := by decide
example : get [] (-262144) = none := by decide
example : readLength (List.replicate 10 0) = some (0, 1) := by decide
example : save [] [104, 105] = some (0, [[2, 104, 105]]) := by decide
example : get [[2, 104, 105]] 0 = some [104, 105] := by decide
example : saveOff AllocResult.ok [] [] = some (0, [[0]]) := by decide
example : saveOff (AllocResult.err 12) [] [104] = some (0, [[1, 104]]) := by decide
example : getOff [[2, 104, 105]] 0 = some [104, 105] := by decide
example : closeOff (fun _ => true) [[1, 104]] = (1, Except.ok []) := rfl

theorem closeOff_ok (freeOk : Nat → Bool) (pages : List (List Nat))
    (h : ∀ i, i < pages.length → freeOk i = true) :
    closeOff freeOk pages = (pages.length, Except.ok []) := by
  rw [closeOff, closeLoop_ok freeOk pages.length 0
    (fun j hj => by simpa using h j hj)]
  simp

/-- Saving a nonempty string on a fresh bank returns index 0 and a single
page holding exactly the record. -/
theorem save_fresh (s : List Nat) (idx : Int) (p' : List (List Nat))
    (h : save [] s = some (idx, p')) (hs : 1 ≤ s.length) :
    idx = 0 ∧ p' = [writeLengthBytes s.length ++ s] := by
  obtain ⟨qq, pp, hp', hidx, _, _, hbr⟩ := save_spec [] s idx p' h hs
  rcases hbr with hbr | ⟨hpp, hqq⟩
  · exact absurd hbr.symm (by simp)
  · subst hpp
    subst hqq
    constructor
    · rw [hidx]
      simp
    · rw [hp']
      simp

/-- C1 counterexample: the claim includes `len(s) = 0`, but saving the empty
string on a fresh arena returns the index `-262144` (no page is ever
allocated, and `reserve` computes `(0 - 1) * stringbankSize + 0`), and `Get`
on that index panics (`allocations[-1]`), so the round trip fails. -/
theorem c1_counterexample :
    save [] [] = some (-262144, []) ∧ get [] (-262144) = none := by
  constructor
  · decide
  · decide

/-- C1 (amended to nonempty strings): for every arena state and every string
`s` with `1 ≤ len(s) ≤ stringbankSize - maxWidthForPage`, `save` succeeds
and an immediate `get` of the returned index yields exactly `s`. -/
theorem c1_roundtrip (pages : List (List Nat)) (s : List Nat)
    (h1 : 1 ≤ s.length) (h2 : s.length ≤ stringbankSize - maxWidthForPage) :
    ∃ idx p', save pages s = some (idx, p') ∧ get p' idx = some s := by
  have h64 : s.length < 2 ^ 64 := by
    have h3 := stringbankSize_lt
    have h4 : stringbankSize - maxWidthForPage ≤ stringbankSize :=
      Nat.sub_le _ _
    omega
  have hsfl : spaceForLength s.length ≤ 3 := by
    rw [spaceForLength_le s.length h64 3]
    have h5 : s.length ≤ 262144 - 3 := by
      have : stringbankSize - maxWidthForPage = 262144 - 3 := by decide
      omega
    norm_num
    omega
  have hsz : s.length + spaceForLength s.length ≤ stringbankSize := by
    have : stringbankSize - maxWidthForPage = 262144 - 3 := by decide
    rw [stringbankSize_eq]
    omega
  obtain ⟨idx, p1, hres⟩ := reserve_total pages _ hsz
  have hsave : save pages s
      = some (idx, writeRecord p1 (writeLengthBytes s.length ++ s)) := by
    simp only [save]
    rw [hres]
    rfl
  refine ⟨idx, _, hsave, ?_⟩
  exact get_saved _ idx s (saved_of_save pages s idx _ hsave h1) h1

/-- Witness for C1 at a concrete input. -/
theorem c1_roundtrip_witness :
    1 ≤ ([104, 105] : List Nat).length ∧
    ([104, 105] : List Nat).length ≤ stringbankSize - maxWidthForPage ∧
    ∃ idx p', save [] [104, 105] = some (idx, p') ∧
      get p' idx = some [104, 105] :=
  ⟨by decide, by decide, c1_roundtrip [] [104, 105] (by decide) (by decide)⟩

/-- C2 counterexample: at `n = 0` the codec writes nothing, so decoding the
(zero-filled) buffer consumes one byte and returns `(0, 1)`, while
`spaceForLength 0 = 0`; the claimed pair `(n, encodedWidth n)` is wrong. -/
theorem c2_counterexample :
    readLength (writeLengthBytes 0 ++ List.replicate 10 0)
      ≠ some (0, spaceForLength 0) := by decide

/-- C2 (amended to positive values): for `1 ≤ n ≤ 2^40`, writing `n` into a
fresh zero-filled buffer and decoding returns `(n, spaceForLength n)`. -/
theorem c2_roundtrip (n pad : Nat) (h1 : 1 ≤ n) (h2 : n ≤ 2 ^ 40) :
    readLength (writeLengthBytes n ++ List.replicate pad 0)
      = some (n, spaceForLength n) := by
  have h64 : n < 2 ^ 64 := by
    have : (2 : Nat) ^ 40 < 2 ^ 64 := by norm_num
    omega
  exact readLength_writeLengthBytes n h1 h64 _

/-- Witness for C2 at a concrete input. -/
theorem c2_roundtrip_witness :
    1 ≤ 300 ∧ 300 ≤ 2 ^ 40 ∧
    readLength (writeLengthBytes 300 ++ List.replicate 8 0)
      = some (300, spaceForLength 300) :=
  ⟨by decide, by norm_num, c2_roundtrip 300 8 (by decide) (by norm_num)⟩

/-- C3 counterexample: the code's width function returns 0 for the value 0,
not 1 — a zero-length string's length prefix costs 0 bytes, not 1. -/
theorem c3_counterexample : spaceForLength 0 ≠ 1 := by decide

/-- C3 (amended at 0): `spaceForLength 0 = 0` (not 1); the function is
non-decreasing; and for positive 64-bit `n` it equals
`max 1 (ceil (bitlength n / 7))` (the `max` being inert there). -/
theorem c3_width :
    spaceForLength 0 = 0 ∧
    (∀ m n, m ≤ n → n < 2 ^ 64 → spaceForLength m ≤ spaceForLength n) ∧
    (∀ n, 1 ≤ n → n < 2 ^ 64 →
      spaceForLength n = max 1 ((Nat.size n + 6) / 7)) := by
  refine ⟨by decide, fun m n hmn hn => spaceForLength_mono m n hmn hn, ?_⟩
  intro n h1 hn
  have hsz : 1 ≤ Nat.size n := Nat.size_pos.mpr (by omega)
  have hmax : max 1 ((Nat.size n + 6) / 7) = (Nat.size n + 6) / 7 := by
    have : 1 ≤ (Nat.size n + 6) / 7 := by omega
    omega
  rw [hmax, spaceForLength, bitsLen_eq_size n hn]

/-- Witness for C3 at concrete inputs. -/
theorem c3_width_witness :
    spaceForLength 5 ≤ spaceForLength 300 ∧
    spaceForLength 300 = max 1 ((Nat.size 300 + 6) / 7) :=
  ⟨c3_width.2.1 5 300 (by decide) (by norm_num),
    c3_width.2.2 300 (by decide) (by norm_num)⟩

/-- C4 counterexample: the claim says handles are pairwise distinct
"including saves of the empty string", but two consecutive saves of the
empty string reserve 0 bytes each and return the same handle. -/
theorem c4_counterexample :
    saveList [] [[], []] = some ([-262144, -262144], []) ∧
    ¬ List.Pairwise (fun a b => a ≠ b) ([-262144, -262144] : List Int) := by
  constructor
  · decide
  · intro h
    rcases h with _ | ⟨h1, _⟩
    exact absurd rfl (h1 (-262144) (by simp))

/-- C4 (amended to nonempty strings): along any sequence of saves of
nonempty strings on a well-formed arena, the returned handles are pairwise
distinct (in fact strictly increasing). -/
theorem c4_distinct (pages : List (List Nat)) (L : List (List Nat))
    (out : List Int) (p' : List (List Nat)) (hwf : WF pages)
    (hne : ∀ t ∈ L, 1 ≤ t.length)
    (h : saveList pages L = some (out, p')) :
    List.Pairwise (fun a b => a ≠ b) out := by
  obtain ⟨hp, _, _⟩ := saveList_chain L pages out p' h hwf hne
  exact hp.imp (fun hlt => Int.ne_of_lt hlt)

/-- Witness for C4 at a concrete input. -/
theorem c4_distinct_witness :
    WF ([] : List (List Nat)) ∧
    saveList [] [[104], [105]] = some ([0, 2], [[1, 104, 1, 105]]) ∧
    List.Pairwise (fun a b => a ≠ b) ([0, 2] : List Int) :=
  ⟨by decide, by decide,
    c4_distinct [] [[104], [105]] [0, 2] [[1, 104, 1, 105]] (by decide)
      (by decide) (by decide)⟩

/-- C5: saving "hello", "goodbye", "cheese" in sequence on any arena, and
then any further sequence of saves, leaves all three earlier records
readable unchanged through their handles. -/
theorem c5_frame (pages : List (List Nat)) (L : List (List Nat))
    (h1 h2 h3 : Int) (p1 p2 p3 : List (List Nat)) (out : List Int)
    (pf : List (List Nat))
    (hs1 : save pages [104, 101, 108, 108, 111] = some (h1, p1))
    (hs2 : save p1 [103, 111, 111, 100, 98, 121, 101] = some (h2, p2))
    (hs3 : save p2 [99, 104, 101, 101, 115, 101] = some (h3, p3))
    (hL : saveList p3 L = some (out, pf)) :
    get pf h1 = some [104, 101, 108, 108, 111] ∧
    get pf h2 = some [103, 111, 111, 100, 98, 121, 101] ∧
    get pf h3 = some [99, 104, 101, 101, 115, 101] := by
  have sv1 := saved_of_save _ _ _ _ hs1 (by decide)
  have sv1b := saved_mono _ _ _ _ hs2 _ _ sv1
  have sv1c := saved_mono _ _ _ _ hs3 _ _ sv1b
  have sv1d := saved_saveList_mono L _ _ _ hL _ _ sv1c
  have sv2 := saved_of_save _ _ _ _ hs2 (by decide)
  have sv2b := saved_mono _ _ _ _ hs3 _ _ sv2
  have sv2c := saved_saveList_mono L _ _ _ hL _ _ sv2b
  have sv3 := saved_of_save _ _ _ _ hs3 (by decide)
  have sv3b := saved_saveList_mono L _ _ _ hL _ _ sv3
  exact ⟨get_saved _ _ _ sv1d (by decide), get_saved _ _ _ sv2c (by decide),
    get_saved _ _ _ sv3b (by decide)⟩

/-- Witness for C5 at a concrete input (fresh arena, one further save of the
empty string, which writes nothing). -/
theorem c5_frame_witness :
    save [] [104, 101, 108, 108, 111]
      = some (0, [[5, 104, 101, 108, 108, 111]]) ∧
    get [[5, 104, 101, 108, 108, 111, 7, 103, 111, 111, 100, 98, 121, 101,
        6, 99, 104, 101, 101, 115, 101]] 0 = some [104, 101, 108, 108, 111] ∧
    get [[5, 104, 101, 108, 108, 111, 7, 103, 111, 111, 100, 98, 121, 101,
        6, 99, 104, 101, 101, 115, 101]] 6
      = some [103, 111, 111, 100, 98, 121, 101] ∧
    get [[5, 104, 101, 108, 108, 111, 7, 103, 111, 111, 100, 98, 121, 101,
        6, 99, 104, 101, 101, 115, 101]] 14 = some [99, 104, 101, 101, 115, 101] :=
  ⟨by decide,
    c5_frame [] [[]] 0 6 14
      [[5, 104, 101, 108, 108, 111]]
      [[5, 104, 101, 108, 108, 111, 7, 103, 111, 111, 100, 98, 121, 101]]
      [[5, 104, 101, 108, 108, 111, 7, 103, 111, 111, 100, 98, 121, 101,
        6, 99, 104, 101, 101, 115, 101]]
      [21]
      [[5, 104, 101, 108, 108, 111, 7, 103, 111, 111, 100, 98, 121, 101,
        6, 99, 104, 101, 101, 115, 101]]
      (by decide) (by decide) (by decide) (by decide)⟩

/-- C6: when the current page's remaining capacity is smaller than the
record's total size (itself at most a page), `save` allocates a fresh page
and writes the whole record at its start, returning index
`pageCount * stringbankSize`; moreover no later save ever writes to a
non-current page (so the overflowed page's tail stays unused forever), and
every successful save of a nonempty string places its whole record within a
single page. -/
theorem c6_page_boundary (pages : List (List Nat)) (s : List Nat)
    (hne : pages ≠ [])
    (hover : stringbankSize < currentLen pages + (s.length + spaceForLength s.length))
    (hfits : s.length + spaceForLength s.length ≤ stringbankSize) :
    save pages s = some ((pages.length : Int) * (stringbankSize : Int),
        pages ++ [writeLengthBytes s.length ++ s]) ∧
    (∀ (q : List (List Nat)) (t : List Nat) (idx : Int) (q' : List (List Nat)),
      save q t = some (idx, q') →
      ∀ i, i + 1 < q.length → q'.getD i [] = q.getD i []) ∧
    (∀ (q : List (List Nat)) (t : List Nat) (idx : Int) (q' : List (List Nat)),
      1 ≤ t.length → save q t = some (idx, q') →
      ∃ (i off : Nat), idx = (i : Int) * (stringbankSize : Int) + (off : Nat) ∧
        off + (t.length + spaceForLength t.length) ≤ stringbankSize) := by
  refine ⟨?_, fun q t idx q' h => save_frozen q t idx q' h, ?_⟩
  · have hcond : currentCap pages
        < currentLen pages + (s.length + spaceForLength s.length) := by
      rw [currentCap_ne_nil pages hne]
      exact hover
    have hg : ¬ currentCap (pages ++ [[]])
        < currentLen (pages ++ [[]]) + (s.length + spaceForLength s.length) := by
      rw [currentLen_concat, currentCap_ne_nil _ (by simp)]
      simp only [List.length_nil, Nat.zero_add]
      omega
    simp only [save, reserve]
    rw [if_pos hcond, if_neg hg, Option.map_some']
    rw [writeRecord_concat]
    simp only [List.nil_append, currentLen_concat, List.length_nil,
      List.length_append, List.length_singleton]
    rw [Option.some_inj, Prod.mk.injEq]
    constructor
    · push_cast
      ring
    · rfl
  · intro q t idx q' ht h
    obtain ⟨qq, pp, _, hidx, hfit, hw, _⟩ := save_spec q t idx q' h ht
    refine ⟨qq.length, pp.length, hidx, ?_⟩
    omega

/-- Witness for C6: a page filled to 262143 of its 262144 bytes cannot take
a 2-byte record, so a fresh page is allocated and the record goes there. -/
theorem c6_page_boundary_witness :
    stringbankSize < currentLen [List.replicate 262143 7]
      + (([104] : List Nat).length + spaceForLength ([104] : List Nat).length) ∧
    save [List.replicate 262143 7] [104]
      = some ((([List.replicate 262143 7] : List (List Nat)).length : Int)
            * (stringbankSize : Int),
          [List.replicate 262143 7]
            ++ [writeLengthBytes ([104] : List Nat).length ++ [104]]) := by
  have hover : stringbankSize < currentLen [List.replicate 262143 7]
      + (([104] : List Nat).length + spaceForLength ([104] : List Nat).length) := by
    have hc : currentLen [List.replicate 262143 7] = 262143 := by
      show (List.replicate 262143 7).length = 262143
      rw [List.length_replicate]
    rw [hc, stringbankSize_eq]
    decide
  exact ⟨hover,
    (c6_page_boundary [List.replicate 262143 7] [104] (List.cons_ne_nil _ _) hover
      (by decide)).1⟩

/-- C7 counterexample: with the page-allocation system call failing
(errno 12, ENOMEM), the offheap `Save` still returns the perfectly normal
handle 0 and proceeds — indistinguishable from the success case, because
`reserve` discards the error (`slice, _ := mmap.Alloc[byte](stringbankSize)`).
Nothing is propagated to the caller. -/
theorem c7_counterexample :
    saveOff (AllocResult.err 12) [] [104, 101, 108, 108, 111]
        = saveOff AllocResult.ok [] [104, 101, 108, 108, 111] ∧
    saveOff (AllocResult.err 12) [] [104, 101, 108, 108, 111]
        = some (0, [[5, 104, 101, 108, 108, 111]]) := by
  constructor
  · decide
  · decide

/-- C7 (amended): the outcome of the allocation system call is silently
discarded — `Save`'s behaviour is identical whatever the call reported, and
a failing allocation still produces an ordinary handle.  (Only `Close`
propagates errors, from `mmap.Free`.) -/
theorem c7_alloc_error_dropped :
    (∀ (e : Nat) (pages : List (List Nat)) (s : List Nat),
      saveOff (AllocResult.err e) pages s = saveOff AllocResult.ok pages s) ∧
    saveOff (AllocResult.err 12) [] [104, 101, 108, 108, 111]
        = some (0, [[5, 104, 101, 108, 108, 111]]) := by
  constructor
  · intro e pages s
    simp only [saveOff, reserveOff_eq]
  · decide

/-- A successful reservation on a fresh (or just-closed) bank of at least
one byte allocates a fresh page and addresses its start: index 0. -/
theorem reserve_fresh (n : Nat) (hn : 1 ≤ n) (idx : Int)
    (p1 : List (List Nat)) (h : reserve [] n = some (idx, p1)) :
    idx = 0 ∧ p1 = [[]] := by
  obtain ⟨hp1, hfit, hidx⟩ := reserve_spec [] n idx p1 h
  have hc : currentCap ([] : List (List Nat))
      < currentLen ([] : List (List Nat)) + n := by
    show (0 : Nat) < 0 + n
    omega
  rw [if_pos hc] at hp1
  rw [List.nil_append] at hp1
  refine ⟨?_, hp1⟩
  rw [hidx, hp1]
  decide

/-- A successful offheap `Save` on a fresh (or just-closed) bank — for any
string, the empty one included, and whatever the allocation system call
reported — allocates a fresh page and returns handle 0 (page index 0,
offset 0): both the fast path and the general path reserve at least one
byte, which forces the page allocation. -/
theorem saveOff_fresh (res : AllocResult) (s : List Nat) (idx : Int)
    (p' : List (List Nat)) (h : saveOff res [] s = some (idx, p')) :
    idx = 0 ∧ ∃ rec, p' = [rec] := by
  simp only [saveOff, reserveOff_eq] at h
  by_cases hl : s.length ≤ 0x7F
  · rw [if_pos hl] at h
    rcases Option.map_eq_some'.mp h with ⟨⟨idx1, p1⟩, hres, hmap⟩
    simp only at hmap
    injection hmap with hidx hp'
    obtain ⟨hidx0, hp1⟩ := reserve_fresh (s.length + 1) (by omega) idx1 p1 hres
    subst hp1
    exact ⟨by rw [← hidx, hidx0], s.length :: s, by rw [← hp']; rfl⟩
  · rw [if_neg hl] at h
    rcases Option.map_eq_some'.mp h with ⟨⟨idx1, p1⟩, hres, hmap⟩
    simp only at hmap
    injection hmap with hidx hp'
    obtain ⟨hidx0, hp1⟩ :=
      reserve_fresh (s.length + spaceForLength s.length) (by omega) idx1 p1 hres
    subst hp1
    exact ⟨by rw [← hidx, hidx0], writeLengthBytes s.length ++ s, by rw [← hp']; rfl⟩

/-- C8: when every unmap succeeds, `Close` frees all `pageCount`
allocations, reports no error and resets the state to the fresh one; the
reset state has size 0, and a subsequent offheap `Save` — of any string,
the empty one included, and under any allocation-call outcome — starts a
fresh page sequence: it allocates a single fresh page and returns handle 0
(handle arithmetic restarting from page index 0). -/
theorem c8_close (freeOk : Nat → Bool) (pages : List (List Nat))
    (h : ∀ i, i < pages.length → freeOk i = true) :
    closeOff freeOk pages = (pages.length, Except.ok []) ∧
    size ([] : List (List Nat)) = 0 ∧
    (∀ (res : AllocResult) (s : List Nat) (idx : Int) (p' : List (List Nat)),
      saveOff res [] s = some (idx, p') → idx = 0 ∧ ∃ rec, p' = [rec]) := by
  refine ⟨closeOff_ok freeOk pages h, rfl, ?_⟩
  intro res s idx p' hsv
  exact saveOff_fresh res s idx p' hsv

/-- Witness for C8 at a concrete input, exercising both the close conjunct
and the subsequent-save conjunct — the latter at the empty string, where
`saveOff AllocResult.ok [] [] = some (0, [[0]])`. -/
theorem c8_close_witness :
    closeOff (fun _ => true) [[1, 104]]
        = (([[1, 104]] : List (List Nat)).length, Except.ok []) ∧
    size ([] : List (List Nat)) = 0 ∧
    ((0 : Int) = 0 ∧ ∃ rec, ([[0]] : List (List Nat)) = [rec]) :=
  ⟨(c8_close (fun _ => true) [[1, 104]] (fun _ _ => rfl)).1,
    (c8_close (fun _ => true) [[1, 104]] (fun _ _ => rfl)).2.1,
    (c8_close (fun _ => true) [[1, 104]] (fun _ _ => rfl)).2.2
      AllocResult.ok [] 0 [[0]] (by decide)⟩

/-- C9 counterexample: saving the empty string on a fresh arena allocates no
page at all (its record costs 0 bytes and `reserve`'s room check
`0 + 0 > 0` fails), so after exactly one save the size is 0, not
`stringbankSize` — the claim's "regardless of the saved string's length"
fails at length 0. -/
theorem c9_counterexample :
    save [] [] = some (-262144, ([] : List (List Nat))) ∧
    size ([] : List (List Nat)) ≠ stringbankSize := by
  constructor
  · decide
  · decide

/-- C9 (amended to nonempty strings): `size` always equals
`pageCount * stringbankSize`; a fresh arena reports 0; and after one save
of a nonempty string the size is exactly one page regardless of the
string's length. -/
theorem c9_size :
    (∀ pages : List (List Nat), size pages = pages.length * stringbankSize) ∧
    size ([] : List (List Nat)) = 0 ∧
    (∀ (s : List Nat) (idx : Int) (p' : List (List Nat)), 1 ≤ s.length →
      save [] s = some (idx, p') → size p' = stringbankSize) := by
  refine ⟨fun pages => rfl, rfl, ?_⟩
  intro s idx p' hs hsv
  obtain ⟨_, hp'⟩ := save_fresh s idx p' hsv hs
  rw [hp']
  show 1 * stringbankSize = stringbankSize
  omega

/-- Witness for C9 at a concrete input. -/
theorem c9_size_witness :
    1 ≤ ([104] : List Nat).length ∧ size [[1, 104]] = stringbankSize :=
  ⟨by decide, c9_size.2.2 [104] 0 [[1, 104]] (by decide) (by decide)⟩

/-- C10 counterexample: the `Save` fast path is not equivalent to the
general path at the empty string: the fast path stores the record `[0]`
(one explicit zero length byte) and returns handle 0, while the general
path reserves 0 bytes, stores nothing, and returns `-262144`. -/
theorem c10_counterexample :
    saveOff AllocResult.ok [] [] ≠ save [] [] := by decide

/-- C10 (amended): the `Get` fast path is equivalent to the general
`readLength` path on all byte-valued pages, and the `Save` fast path is
equivalent to the general `spaceForLength`/`writeLength` path for lengths
`1..127` (not 0). -/
theorem c10_fast_paths :
    (∀ (pages : List (List Nat)) (index : Int), BytesWF pages →
      getOff pages index = get pages index) ∧
    (∀ (pages : List (List Nat)) (s : List Nat), 1 ≤ s.length →
      s.length ≤ 127 → saveOff AllocResult.ok pages s = save pages s) :=
  ⟨fun pages index hb => getOff_eq_get pages index hb,
    fun pages s h1 h2 => saveOff_ok_eq_save pages s h1 h2⟩

/-- Witness for C10 at concrete inputs. -/
theorem c10_fast_paths_witness :
    BytesWF [[2, 104, 105]] ∧
    getOff [[2, 104, 105]] 0 = get [[2, 104, 105]] 0 ∧
    saveOff AllocResult.ok [] [104] = save [] [104] :=
  ⟨by decide, c10_fast_paths.1 [[2, 104, 105]] 0 (by decide),
    c10_fast_paths.2 [] [104] (by decide) (by decide)⟩
